import Mathlib

/-!
# Verification of the scales/arpeggios/rhythm notation generator

Shallow embedding of the core note-sequence and measure-layout generator of
`app.py`: the pitch speller (`fix_enharmonic_spelling`), the range/clef
resolver (`determine_clef_and_octave`), the scale and arpeggio sequencers and
measure packers (`create_scale_measures`, `create_arpeggio_measures`), the
rhythm line builder (`create_custom_rhythm_part`), and the part/score
assemblers.

Modelling conventions:
* A music21 `Pitch` is modelled by `MPitch`: a diatonic letter, a chromatic
  alteration (`alter`, in semitones: `1` = sharp, `-1` = flat, `0` = natural),
  an octave number, and the display fields of the accidental. A pitch's
  spelled *name* (e.g. `"E#"`) corresponds to the pair `(letter, alter)`;
  an accidental object is present exactly when `alter ≠ 0`, and the two
  display fields model `accidental.displayStatus = True` and
  `accidental.displayType = 'normal'`; they are `false` when no accidental
  object is present (in particular assigning a natural name drops the
  accidental object and hence its display state).
* Durations are in quarter-note units as exact rationals (all duration values
  in the program are dyadic rationals: whole = 4, quarter = 1, eighth = 1/2).
* `scale.MajorScale(key).getPitches(tonic@o, tonic@(o+n))` is an external
  music21 call; it is embedded by `getPitchesMajor`, the standard diatonic
  spelling of the ascending major scale: degree `k` sits at diatonic staff
  position `7*o + letterIdx tonic + k` (octaves increment at C, as in
  music21's octave numbering) and at chromatic offset
  `12*(k/7) + majorStep (k%7)` above the tonic, the letter being forced by
  the position and the alteration making up the difference.
* A music21 `Stream`/`Measure`/`Part` is modelled by lists in insertion
  order; `insert(0, x)` elements placed at the front, `append` at the back.
  Annotations inserted into a measure (title text expression, clef, key
  signature) are modelled as fields of `Measure` rather than in-line
  elements, since the program only ever inserts them at offset 0 of a
  measure and only queries the notes.
-/

/-- The seven diatonic letter names. -/
inductive Letter where
  | C | D | E | F | G | A | B
  deriving DecidableEq, Repr

/-- Index of a letter in C-based octave order (C=0 … B=6), the order in which
music21 octave numbers increment. -/
def letterIdx : Letter → ℕ
  | .C => 0 | .D => 1 | .E => 2 | .F => 3 | .G => 4 | .A => 5 | .B => 6

/-- Letter at a given C-based index (defined for indices 0–6; callers always
pass a value reduced mod 7). -/
def letterOfIdx : ℕ → Letter
  | 0 => .C | 1 => .D | 2 => .E | 3 => .F | 4 => .G | 5 => .A | _ => .B

/-- Semitone offset of each natural letter above C. -/
def letterSemis : Letter → ℤ
  | .C => 0 | .D => 2 | .E => 4 | .F => 5 | .G => 7 | .A => 9 | .B => 11

/-- A music21 pitch: spelled name `(letter, alter)`, octave, and the
accidental's display fields (meaningful only when `alter ≠ 0`, i.e. when an
accidental object is present; fresh pitches have both fields `false`). -/
structure MPitch where
  letter : Letter
  alter : ℤ
  octave : ℤ
  dispStatus : Bool
  dispNormal : Bool
  deriving DecidableEq, Repr

/-- `ENHARM_MAP` from `app.py`: spelled name -> (new name, octave adjustment).
The keys `"E#"`, `"B#"`, `"Cb"`, `"Fb"` are represented by their
letter/alteration pairs; all four target names are naturals. -/
def ENHARM_MAP : List ((Letter × ℤ) × (Letter × ℤ)) :=
  [((.E, 1), (.F, 0)),
   ((.B, 1), (.C, 1)),
   ((.C, -1), (.B, -1)),
   ((.F, -1), (.E, 0))]

/-- `fix_enharmonic_spelling` from `app.py`, acting on the pitch of a note:
if the spelled name is a key of `ENHARM_MAP`, rewrite the name to the (always
natural) target and adjust the octave — assigning the natural name drops the
accidental object, so the display fields reset; afterwards, if an accidental
is present (`alter ≠ 0`), force `displayStatus = True` and
`displayType = 'normal'`. Total: any name not in the map passes through. -/
def fixPitch (p : MPitch) : MPitch :=
  let p1 : MPitch :=
    match ENHARM_MAP.lookup (p.letter, p.alter) with
    | some (newName, octaveAdjust) =>
        { letter := newName, alter := 0, octave := p.octave + octaveAdjust,
          dispStatus := false, dispNormal := false }
    | none => p
  if p1.alter ≠ 0 then { p1 with dispStatus := true, dispNormal := true } else p1

/-- Every hit of the enharmonic lookup is one of the four table entries. -/
theorem lookup_enharm_cases {k : Letter × ℤ} {v : Letter × ℤ}
    (h : ENHARM_MAP.lookup k = some v) :
    (k = (.E, 1) ∧ v = (.F, 0)) ∨ (k = (.B, 1) ∧ v = (.C, 1)) ∨
    (k = (.C, -1) ∧ v = (.B, -1)) ∨ (k = (.F, -1) ∧ v = (.E, 0)) := by
  simp only [ENHARM_MAP, List.lookup] at h
  repeat' split at h
  all_goals simp_all [beq_iff_eq]

/-- Names with no alteration are never keys of the enharmonic map. -/
theorem lookup_enharm_natural (l : Letter) : ENHARM_MAP.lookup (l, (0 : ℤ)) = none := by
  cases l <;> decide

/-- The enharmonic lookup misses whenever the name is not one of the four keys. -/
theorem lookup_enharm_none {l : Letter} {a : ℤ}
    (h : ¬((l = .E ∧ a = 1) ∨ (l = .B ∧ a = 1) ∨ (l = .C ∧ a = -1) ∨ (l = .F ∧ a = -1))) :
    ENHARM_MAP.lookup (l, a) = none := by
  rcases hl : ENHARM_MAP.lookup (l, a) with _ | v
  · rfl
  · rcases lookup_enharm_cases hl with ⟨hk, _⟩ | ⟨hk, _⟩ | ⟨hk, _⟩ | ⟨hk, _⟩ <;>
      simp [Prod.ext_iff] at hk <;> exact absurd (by tauto) h

/-- C5: the pitch speller rewrites exactly the four disfavored spellings
(E#→F same octave, B#→C octave+1, Cb→B octave−1, Fb→E same octave), leaves
the name and octave of every other pitch unchanged, is total, and afterwards
forces the display of any remaining non-natural accidental to
status-on/'normal'. -/
theorem fixPitch_spec (p : MPitch) :
    ((p.letter, p.alter) = (Letter.E, 1) →
      fixPitch p = ⟨.F, 0, p.octave, false, false⟩) ∧
    ((p.letter, p.alter) = (Letter.B, 1) →
      fixPitch p = ⟨.C, 0, p.octave + 1, false, false⟩) ∧
    ((p.letter, p.alter) = (Letter.C, -1) →
      fixPitch p = ⟨.B, 0, p.octave - 1, false, false⟩) ∧
    ((p.letter, p.alter) = (Letter.F, -1) →
      fixPitch p = ⟨.E, 0, p.octave, false, false⟩) ∧
    (ENHARM_MAP.lookup (p.letter, p.alter) = none →
      (fixPitch p).letter = p.letter ∧ (fixPitch p).alter = p.alter ∧
      (fixPitch p).octave = p.octave) ∧
    ((fixPitch p).alter ≠ 0 →
      (fixPitch p).dispStatus = true ∧ (fixPitch p).dispNormal = true) := by
  obtain ⟨l, a, o, d1, d2⟩ := p
  refine ⟨?_, ?_, ?_, ?_, ?_, ?_⟩
  · rintro h; simp only [Prod.mk.injEq] at h; obtain ⟨rfl, rfl⟩ := h
    have hl : ENHARM_MAP.lookup (Letter.E, (1 : ℤ)) = some (Letter.F, 0) := by decide
    simp [fixPitch, hl]
  · rintro h; simp only [Prod.mk.injEq] at h; obtain ⟨rfl, rfl⟩ := h
    have hl : ENHARM_MAP.lookup (Letter.B, (1 : ℤ)) = some (Letter.C, 1) := by decide
    simp [fixPitch, hl]
  · rintro h; simp only [Prod.mk.injEq] at h; obtain ⟨rfl, rfl⟩ := h
    have hl : ENHARM_MAP.lookup (Letter.C, (-1 : ℤ)) = some (Letter.B, -1) := by decide
    simp [fixPitch, hl]
    omega
  · rintro h; simp only [Prod.mk.injEq] at h; obtain ⟨rfl, rfl⟩ := h
    have hl : ENHARM_MAP.lookup (Letter.F, (-1 : ℤ)) = some (Letter.E, 0) := by decide
    simp [fixPitch, hl]
  · intro h
    simp only [fixPitch, h]
    split <;> simp
  · intro h
    rcases hl : ENHARM_MAP.lookup ((⟨l, a, o, d1, d2⟩ : MPitch).letter,
        (⟨l, a, o, d1, d2⟩ : MPitch).alter) with _ | v
    · simp only [fixPitch, hl] at h ⊢
      split at h <;> simp_all
    · exfalso
      rcases lookup_enharm_cases hl with ⟨_, hv⟩ | ⟨_, hv⟩ | ⟨_, hv⟩ | ⟨_, hv⟩ <;>
        subst hv <;> simp only [fixPitch, hl] at h <;> simp_all

/-- Witness for `fixPitch_spec`: the E#4 instance, evaluated concretely. -/
theorem fixPitch_spec_witness :
    ((((⟨.E, 1, 4, false, false⟩ : MPitch).letter,
        (⟨.E, 1, 4, false, false⟩ : MPitch).alter) = (Letter.E, 1)) ∧
     fixPitch ⟨.E, 1, 4, false, false⟩ = ⟨.F, 0, 4, false, false⟩) :=
  ⟨by decide, (fixPitch_spec ⟨.E, 1, 4, false, false⟩).1 (by decide)⟩

/-- C6: the pitch speller is idempotent (same name, octave and accidental
display state after two applications as after one); in particular E#4 respells
to F4 and B#3 respells to C4. -/
theorem fixPitch_idempotent (p : MPitch) :
    fixPitch (fixPitch p) = fixPitch p ∧
    fixPitch ⟨.E, 1, 4, false, false⟩ = ⟨.F, 0, 4, false, false⟩ ∧
    fixPitch ⟨.B, 1, 3, false, false⟩ = ⟨.C, 0, 4, false, false⟩ := by
  refine ⟨?_, by decide, by decide⟩
  obtain ⟨l, a, o, d1, d2⟩ := p
  rcases hl : ENHARM_MAP.lookup (l, a) with _ | ⟨nm, adj⟩
  · by_cases ha : a = 0
    · subst ha
      simp [fixPitch, hl]
    · have h1 : fixPitch ⟨l, a, o, d1, d2⟩ = ⟨l, a, o, true, true⟩ := by
        simp [fixPitch, hl, ha]
      rw [h1]
      simp [fixPitch, hl, ha]
  · have hcase := lookup_enharm_cases hl
    have h1 : fixPitch ⟨l, a, o, d1, d2⟩ = ⟨nm, 0, o + adj, false, false⟩ := by
      simp [fixPitch, hl]
    rw [h1]
    have hnat : ENHARM_MAP.lookup (nm, (0 : ℤ)) = none := lookup_enharm_natural nm
    simp [fixPitch, hnat]

/-- Semitone offset above the tonic of major-scale degree `r` within one
octave (`r` is a degree index reduced mod 7): the major pattern
0, 2, 4, 5, 7, 9, 11. -/
def majorStep : ℕ → ℤ
  | 0 => 0 | 1 => 2 | 2 => 4 | 3 => 5 | 4 => 7 | 5 => 9 | _ => 11

/-- Degree `k` (0-based, unbounded) of the major scale with the given tonic
spelling starting at octave `o`: the diatonic staff position advances by one
letter per degree (octave number incrementing at C), and the alteration makes
the chromatic distance from the tonic equal to the major-scale pattern. This
is music21's spelling of `MajorScale.getPitches` output: e.g. the 7th degree
of F# major is E#. -/
def scaleDegreePitch (t : Letter) (a : ℤ) (o : ℕ) (k : ℕ) : MPitch :=
  let pos : ℕ := 7 * o + letterIdx t + k
  let chrom : ℤ := 12 * o + letterSemis t + a + 12 * ((k / 7 : ℕ) : ℤ) + majorStep (k % 7)
  { letter := letterOfIdx (pos % 7),
    alter := chrom - (12 * (pos / 7 : ℕ) + letterSemis (letterOfIdx (pos % 7))),
    octave := (pos / 7 : ℕ),
    dispStatus := false, dispNormal := false }

/-- Model of the external call
`scale_object.getPitches(f"{tonic}{octave_start}", f"{tonic}{octave_start+num_octaves}")`
for a major scale: the `7*num_octaves + 1` ascending degrees from
tonic@octave_start to tonic@(octave_start+num_octaves) inclusive. -/
def getPitchesMajor (t : Letter) (a : ℤ) (octave_start num_octaves : ℕ) : List MPitch :=
  (List.range (7 * num_octaves + 1)).map (scaleDegreePitch t a octave_start)

/-- `all_pitches` of `create_scale_measures`:
`pitches_up + list(reversed(pitches_up[:-1]))`. -/
def scaleAllPitches (t : Letter) (a : ℤ) (octave_start num_octaves : ℕ) : List MPitch :=
  let pitches_up := getPitchesMajor t a octave_start num_octaves
  pitches_up ++ pitches_up.dropLast.reverse

/-- The tonic pitch at a given octave, as a fresh music21 pitch. -/
def tonicPitch (t : Letter) (a : ℤ) (o : ℕ) : MPitch :=
  ⟨t, a, (o : ℤ), false, false⟩

/-- Chromatic (MIDI-like) value of a pitch, used to state "ascending". -/
def pitchChrom (p : MPitch) : ℤ :=
  12 * p.octave + letterSemis p.letter + p.alter

theorem letterOfIdx_letterIdx (t : Letter) : letterOfIdx (letterIdx t) = t := by
  cases t <;> rfl

theorem letterIdx_letterOfIdx {r : ℕ} (h : r < 7) : letterIdx (letterOfIdx r) = r := by
  interval_cases r <;> rfl

theorem letterIdx_lt (t : Letter) : letterIdx t < 7 := by
  cases t <;> simp [letterIdx]

/-- Degree 0 is the tonic at the start octave. -/
theorem scaleDegreePitch_zero (t : Letter) (a : ℤ) (o : ℕ) :
    scaleDegreePitch t a o 0 = tonicPitch t a o := by
  have h7 : (7 * o + letterIdx t + 0) % 7 = letterIdx t := by
    have := letterIdx_lt t; omega
  have hd : (7 * o + letterIdx t + 0) / 7 = o := by
    have := letterIdx_lt t; omega
  simp only [scaleDegreePitch, tonicPitch, h7, hd, letterOfIdx_letterIdx,
    Nat.zero_div, Nat.zero_mod, majorStep, MPitch.mk.injEq, and_true, true_and]
  push_cast
  ring

/-- Degree `7*n` is the tonic, `n` octaves up. -/
theorem scaleDegreePitch_top (t : Letter) (a : ℤ) (o n : ℕ) :
    scaleDegreePitch t a o (7 * n) = tonicPitch t a (o + n) := by
  have h7 : (7 * o + letterIdx t + 7 * n) % 7 = letterIdx t := by
    have := letterIdx_lt t; omega
  have hd : (7 * o + letterIdx t + 7 * n) / 7 = o + n := by
    have := letterIdx_lt t; omega
  have hdiv : 7 * n / 7 = n := by omega
  have hmod : 7 * n % 7 = 0 := by omega
  simp only [scaleDegreePitch, tonicPitch, h7, hd, hdiv, hmod,
    letterOfIdx_letterIdx, majorStep, MPitch.mk.injEq, and_true, true_and]
  push_cast
  ring

/-- Distinct degrees are spelled as distinct pitches (the staff position
determines the degree). -/
theorem scaleDegreePitch_injective (t : Letter) (a : ℤ) (o : ℕ) :
    Function.Injective (scaleDegreePitch t a o) := by
  intro k k' h
  have hlet : letterOfIdx ((7 * o + letterIdx t + k) % 7) =
      letterOfIdx ((7 * o + letterIdx t + k') % 7) := congrArg MPitch.letter h
  have hoct : (((7 * o + letterIdx t + k) / 7 : ℕ) : ℤ) =
      (((7 * o + letterIdx t + k') / 7 : ℕ) : ℤ) := congrArg MPitch.octave h
  have hoct' : (7 * o + letterIdx t + k) / 7 = (7 * o + letterIdx t + k') / 7 :=
    Int.ofNat_inj.mp hoct
  have hm : (7 * o + letterIdx t + k) % 7 = (7 * o + letterIdx t + k') % 7 := by
    have h1 : (7 * o + letterIdx t + k) % 7 < 7 := Nat.mod_lt _ (by omega)
    have h2 : (7 * o + letterIdx t + k') % 7 < 7 := Nat.mod_lt _ (by omega)
    calc (7 * o + letterIdx t + k) % 7
        = letterIdx (letterOfIdx ((7 * o + letterIdx t + k) % 7)) :=
          (letterIdx_letterOfIdx h1).symm
      _ = letterIdx (letterOfIdx ((7 * o + letterIdx t + k') % 7)) := by rw [hlet]
      _ = (7 * o + letterIdx t + k') % 7 := letterIdx_letterOfIdx h2
  omega

/-- The per-degree chromatic offset is strictly monotone. -/
theorem scaleDegree_chrom_strictMono (t : Letter) (a : ℤ) (o : ℕ) :
    StrictMono (fun k => pitchChrom (scaleDegreePitch t a o k)) := by
  have hval : ∀ k, pitchChrom (scaleDegreePitch t a o k) =
      12 * o + letterSemis t + a + 12 * ((k / 7 : ℕ) : ℤ) + majorStep (k % 7) := by
    intro k
    simp only [pitchChrom, scaleDegreePitch]
    ring
  refine strictMono_nat_of_lt_succ fun k => ?_
  rw [hval, hval]
  have h7 : k % 7 < 7 := Nat.mod_lt _ (by omega)
  rcases Nat.lt_or_ge (k % 7) 6 with hc | hc
  · have hd : (k + 1) / 7 = k / 7 := by omega
    have hm : (k + 1) % 7 = k % 7 + 1 := by omega
    rw [hd, hm]
    have hlt : majorStep (k % 7) < majorStep (k % 7 + 1) := by
      have h6 : k % 7 < 6 := hc
      set r := k % 7 with hr
      interval_cases r <;> norm_num [majorStep]
    omega
  · have hc6 : k % 7 = 6 := by omega
    have hd : (k + 1) / 7 = k / 7 + 1 := by omega
    have hm : (k + 1) % 7 = 0 := by omega
    rw [hd, hm, hc6]
    have h1 : majorStep 6 = 11 := rfl
    have h2 : majorStep 0 = 0 := rfl
    rw [h1, h2]
    push_cast
    omega

/-- Decomposition of the ascent: all degrees below the apex, then the apex. -/
theorem getPitchesMajor_eq_concat (t : Letter) (a : ℤ) (o n : ℕ) :
    getPitchesMajor t a o n =
      (List.range (7 * n)).map (scaleDegreePitch t a o) ++
        [scaleDegreePitch t a o (7 * n)] := by
  simp [getPitchesMajor, List.range_succ]

/-- The apex degree does not occur among the lower degrees. -/
theorem apex_not_mem_lower (t : Letter) (a : ℤ) (o n : ℕ) :
    scaleDegreePitch t a o (7 * n) ∉
      (List.range (7 * n)).map (scaleDegreePitch t a o) := by
  intro hmem
  obtain ⟨k, hk, hfk⟩ := List.mem_map.mp hmem
  have := scaleDegreePitch_injective t a o hfk
  rw [List.mem_range] at hk
  omega

/-- C1: for every major-key tonic spelling, start octave and positive
octave count, the scale sequencer's `all_pitches` is the ascent followed by
the reverse of the ascent without its topmost pitch; the ascent runs from
tonic@octave_start up to tonic@(octave_start+num_octaves) and is strictly
ascending; the full sequence has length `2*(7*num_octaves) + 1`, begins and
ends at tonic@octave_start, and contains the apex exactly once; for key C
with octave_start 4 and num_octaves 1 it is literally
C4 D4 E4 F4 G4 A4 B4 C5 B4 A4 G4 F4 E4 D4 C4. -/
theorem scaleAllPitches_spec (t : Letter) (a : ℤ) (o n : ℕ) (hn : 1 ≤ n) :
    scaleAllPitches t a o n =
      getPitchesMajor t a o n ++ (getPitchesMajor t a o n).dropLast.reverse ∧
    (getPitchesMajor t a o n).length = 7 * n + 1 ∧
    (scaleAllPitches t a o n).length = 2 * (7 * n) + 1 ∧
    (getPitchesMajor t a o n).head? = some (tonicPitch t a o) ∧
    (getPitchesMajor t a o n).getLast? = some (tonicPitch t a (o + n)) ∧
    List.Pairwise (fun p q => pitchChrom p < pitchChrom q) (getPitchesMajor t a o n) ∧
    (scaleAllPitches t a o n).head? = some (tonicPitch t a o) ∧
    (scaleAllPitches t a o n).getLast? = some (tonicPitch t a o) ∧
    (scaleAllPitches t a o n).count (tonicPitch t a (o + n)) = 1 ∧
    ((t, a, o, n) = (Letter.C, 0, 4, 1) →
      scaleAllPitches t a o n =
        [⟨.C, 0, 4, false, false⟩, ⟨.D, 0, 4, false, false⟩, ⟨.E, 0, 4, false, false⟩,
         ⟨.F, 0, 4, false, false⟩, ⟨.G, 0, 4, false, false⟩, ⟨.A, 0, 4, false, false⟩,
         ⟨.B, 0, 4, false, false⟩, ⟨.C, 0, 5, false, false⟩, ⟨.B, 0, 4, false, false⟩,
         ⟨.A, 0, 4, false, false⟩, ⟨.G, 0, 4, false, false⟩, ⟨.F, 0, 4, false, false⟩,
         ⟨.E, 0, 4, false, false⟩, ⟨.D, 0, 4, false, false⟩, ⟨.C, 0, 4, false, false⟩]) := by
  have hup_concat := getPitchesMajor_eq_concat t a o n
  have hdrop : (getPitchesMajor t a o n).dropLast =
      (List.range (7 * n)).map (scaleDegreePitch t a o) := by
    rw [hup_concat, List.dropLast_concat]
  have hlow_ne : (List.range (7 * n)).map (scaleDegreePitch t a o) ≠ [] := by
    simp only [ne_eq, List.map_eq_nil_iff, List.range_eq_nil]
    omega
  have hlow_head : ((List.range (7 * n)).map (scaleDegreePitch t a o)).head? =
      some (tonicPitch t a o) := by
    obtain ⟨m, hm⟩ : ∃ m, 7 * n = m + 1 := ⟨7 * n - 1, by omega⟩
    rw [hm, List.range_succ_eq_map]
    simp [scaleDegreePitch_zero]
  refine ⟨rfl, by simp [getPitchesMajor], ?_, ?_, ?_, ?_, ?_, ?_, ?_, ?_⟩
  · simp [scaleAllPitches, getPitchesMajor]
    omega
  · rw [hup_concat, List.head?_append_of_ne_nil _ hlow_ne, hlow_head]
  · rw [hup_concat, List.getLast?_concat, scaleDegreePitch_top]
  · rw [getPitchesMajor]
    rw [List.pairwise_map]
    exact (List.pairwise_lt_range _).imp
      (fun h => scaleDegree_chrom_strictMono t a o h)
  · rw [scaleAllPitches]
    have hne : getPitchesMajor t a o n ≠ [] := by
      rw [hup_concat]; simp
    rw [List.head?_append_of_ne_nil _ hne, hup_concat,
      List.head?_append_of_ne_nil _ hlow_ne, hlow_head]
  · rw [scaleAllPitches]
    have hrev_ne : (getPitchesMajor t a o n).dropLast.reverse ≠ [] := by
      rw [hdrop]
      simpa using hlow_ne
    rw [List.getLast?_append_of_ne_nil _ hrev_ne, List.getLast?_reverse, hdrop, hlow_head]
  · rw [scaleAllPitches]
    have hcount_low :
        ((List.range (7 * n)).map (scaleDegreePitch t a o)).count
          (scaleDegreePitch t a o (7 * n)) = 0 :=
      List.count_eq_zero.mpr (apex_not_mem_lower t a o n)
    rw [← scaleDegreePitch_top t a o n]
    rw [List.count_append, List.count_reverse, hdrop, hcount_low, hup_concat,
      List.count_append, hcount_low]
    simp
  · rintro h
    simp only [Prod.mk.injEq] at h
    obtain ⟨rfl, rfl, rfl, rfl⟩ := h
    decide

/-- Witness for `scaleAllPitches_spec`: the C major, one-octave instance. -/
theorem scaleAllPitches_spec_witness :
    scaleAllPitches Letter.C 0 4 1 =
      getPitchesMajor Letter.C 0 4 1 ++ (getPitchesMajor Letter.C 0 4 1).dropLast.reverse ∧
    (getPitchesMajor Letter.C 0 4 1).length = 7 * 1 + 1 ∧
    (scaleAllPitches Letter.C 0 4 1).length = 2 * (7 * 1) + 1 ∧
    (getPitchesMajor Letter.C 0 4 1).head? = some (tonicPitch Letter.C 0 4) ∧
    (getPitchesMajor Letter.C 0 4 1).getLast? = some (tonicPitch Letter.C 0 (4 + 1)) ∧
    List.Pairwise (fun p q => pitchChrom p < pitchChrom q) (getPitchesMajor Letter.C 0 4 1) ∧
    (scaleAllPitches Letter.C 0 4 1).head? = some (tonicPitch Letter.C 0 4) ∧
    (scaleAllPitches Letter.C 0 4 1).getLast? = some (tonicPitch Letter.C 0 4) ∧
    (scaleAllPitches Letter.C 0 4 1).count (tonicPitch Letter.C 0 (4 + 1)) = 1 ∧
    ((Letter.C, (0 : ℤ), (4 : ℕ), (1 : ℕ)) = (Letter.C, 0, 4, 1) →
      scaleAllPitches Letter.C 0 4 1 =
        [⟨.C, 0, 4, false, false⟩, ⟨.D, 0, 4, false, false⟩, ⟨.E, 0, 4, false, false⟩,
         ⟨.F, 0, 4, false, false⟩, ⟨.G, 0, 4, false, false⟩, ⟨.A, 0, 4, false, false⟩,
         ⟨.B, 0, 4, false, false⟩, ⟨.C, 0, 5, false, false⟩, ⟨.B, 0, 4, false, false⟩,
         ⟨.A, 0, 4, false, false⟩, ⟨.G, 0, 4, false, false⟩, ⟨.F, 0, 4, false, false⟩,
         ⟨.E, 0, 4, false, false⟩, ⟨.D, 0, 4, false, false⟩, ⟨.C, 0, 4, false, false⟩]) :=
  scaleAllPitches_spec Letter.C 0 4 1 (by decide)

/-- A note event: a (respelled) pitch with a duration in quarter-note units. -/
structure NoteEv where
  pitch : MPitch
  dur : ℚ
  deriving DecidableEq, Repr

/-- A measure: its notes plus the annotations the program may insert at its
offset 0 — the title text expression, a clef (inserted by the part assembler
into the first scale measure only), and the key signature object. -/
structure Measure where
  title : Option String
  clefIns : Option String
  keyIns : Bool
  notes : List NoteEv
  deriving DecidableEq, Repr

/-- A freshly opened `stream.Measure()`. -/
def emptyMeasure : Measure := ⟨none, none, false, []⟩

/-- `n = note.Note(p); n.duration = duration.Duration(d); fix_enharmonic_spelling(n)` —
the speller touches only the pitch. -/
def mkNoteEv (p : MPitch) (d : ℚ) : NoteEv := ⟨fixPitch p, d⟩

/-- The scale measure-packing loop of `create_scale_measures` (lines 118–160):
arguments are the remaining pitches, the enumeration index `i` of the next
pitch, `note_counter`, the open `current_measure`, and the measures already
appended to `measures_stream`. The last pitch overall (remaining list a
singleton) closes the open measure if non-empty and goes alone into a new
whole-note measure; otherwise at `note_counter % 7 == 0` the open measure is
flushed (if non-empty) and a new one started with a quarter note, else an
eighth note is appended; the title text is inserted when a measure is created
at index 0. -/
def scalePackGo (title_text : String) :
    List MPitch → ℕ → ℕ → Measure → List Measure → List Measure
  | [], _, _, _, acc => acc
  | [p], i, _, cur, acc =>
      let acc1 := if cur.notes.isEmpty then acc else acc ++ [cur]
      acc1 ++ [{ title := if i = 0 then some title_text else none,
                 clefIns := none, keyIns := false, notes := [mkNoteEv p 4] }]
  | p :: q :: rest, i, counter, cur, acc =>
      if counter % 7 = 0 then
        let acc1 := if cur.notes.isEmpty then acc else acc ++ [cur]
        scalePackGo title_text (q :: rest) (i + 1) (counter + 1)
          { title := if i = 0 then some title_text else none,
            clefIns := none, keyIns := false, notes := [mkNoteEv p 1] } acc1
      else
        scalePackGo title_text (q :: rest) (i + 1) (counter + 1)
          { cur with notes := cur.notes ++ [mkNoteEv p (1/2)] } acc

/-- `create_scale_measures` from `app.py`: build `all_pitches` from the major
scale of the given tonic and pack it with the scale loop. -/
def create_scale_measures (title_text : String) (t : Letter) (a : ℤ)
    (octave_start num_octaves : ℕ) : List Measure :=
  scalePackGo title_text (scaleAllPitches t a octave_start num_octaves) 0 0
    emptyMeasure []

/-- `if current_measure.notes: measures_stream.append(current_measure)`. -/
def flushMeasure (cur : Measure) (acc : List Measure) : List Measure :=
  if cur.notes.isEmpty then acc else acc ++ [cur]

/-- Append a run of eighth notes to an open measure. -/
def appendEighths (cur : Measure) (ps : List MPitch) : Measure :=
  { cur with notes := cur.notes ++ ps.map (fun p => mkNoteEv p (1/2)) }

/-- Split a pitch list into chunks of at most 7 (the scale measure capacity). -/
def chunks7 : List MPitch → List (List MPitch)
  | [] => []
  | p :: rest => (p :: rest.take 6) :: chunks7 (rest.drop 6)
termination_by l => l.length
decreasing_by simp_wf; omega

/-- The measure a scale chunk becomes: quarter note first, eighths after. -/
def measureOfChunk (tt : Option String) (c : List MPitch) : Measure :=
  { title := tt, clefIns := none, keyIns := false,
    notes := match c with
      | [] => []
      | p :: rest => mkNoteEv p 1 :: rest.map (fun q => mkNoteEv q (1/2)) }

/-- Measures of a chunk list; only the first chunk may carry the title. -/
def chunkMeasures (tt0 : Option String) : List (List MPitch) → List Measure
  | [] => []
  | c :: cs => measureOfChunk tt0 c :: chunkMeasures none cs

/-- The closing whole-note measure; it carries the title exactly when the
final note is the very first event (enumeration index 0). -/
def wholeMeasure (title_text : String) (iLast : ℕ) (p : MPitch) : Measure :=
  { title := if iLast = 0 then some title_text else none,
    clefIns := none, keyIns := false, notes := [mkNoteEv p 4] }

/-- What the scale packing loop computes from an arbitrary mid-loop state, in
closed form: if the counter is measure-aligned, flush and emit whole chunks;
otherwise first fill the open measure up to the capacity boundary. -/
def scalePackClosed (title_text : String) (M : List MPitch) (p : MPitch)
    (i counter : ℕ) (cur : Measure) (acc : List Measure) : List Measure :=
  if counter % 7 = 0 then
    flushMeasure cur acc ++
      chunkMeasures (if i = 0 then some title_text else none) (chunks7 M) ++
      [wholeMeasure title_text (i + M.length) p]
  else if M.length < 7 - counter % 7 then
    flushMeasure (appendEighths cur M) acc ++ [wholeMeasure title_text (i + M.length) p]
  else
    flushMeasure (appendEighths cur (M.take (7 - counter % 7))) acc ++
      chunkMeasures none (chunks7 (M.drop (7 - counter % 7))) ++
      [wholeMeasure title_text (i + M.length) p]

theorem appendEighths_nil (cur : Measure) : appendEighths cur [] = cur := by
  simp [appendEighths]

theorem appendEighths_cons (cur : Measure) (y : MPitch) (ys : List MPitch) :
    appendEighths cur (y :: ys) =
      appendEighths { cur with notes := cur.notes ++ [mkNoteEv y (1/2)] } ys := by
  simp [appendEighths]

theorem measureOfChunk_eq_appendEighths (tt0 : Option String) (y : MPitch)
    (ys : List MPitch) :
    measureOfChunk tt0 (y :: ys) = appendEighths ⟨tt0, none, false, [mkNoteEv y 1]⟩ ys := by
  simp [measureOfChunk, appendEighths]

theorem flushMeasure_append (m : Measure) (acc : List Measure)
    (hm : m.notes.isEmpty = false) : flushMeasure m acc = acc ++ [m] := by
  simp [flushMeasure, hm]

theorem appendEighths_isEmpty (cur : Measure) (ps : List MPitch) :
    (appendEighths cur ps).notes.isEmpty = (cur.notes.isEmpty && ps.isEmpty) := by
  obtain ⟨t0, c0, k0, ns⟩ := cur
  cases ns <;> cases ps <;> simp [appendEighths]

theorem scalePackGo_last (tt : String) (p : MPitch) (i counter : ℕ) (cur : Measure)
    (acc : List Measure) :
    scalePackGo tt [p] i counter cur acc = flushMeasure cur acc ++ [wholeMeasure tt i p] :=
  rfl

theorem scalePackGo_cons (tt : String) (p q : MPitch) (rest : List MPitch)
    (i counter : ℕ) (cur : Measure) (acc : List Measure) :
    scalePackGo tt (p :: q :: rest) i counter cur acc =
      if counter % 7 = 0 then
        scalePackGo tt (q :: rest) (i + 1) (counter + 1)
          ⟨if i = 0 then some tt else none, none, false, [mkNoteEv p 1]⟩
          (flushMeasure cur acc)
      else
        scalePackGo tt (q :: rest) (i + 1) (counter + 1)
          { cur with notes := cur.notes ++ [mkNoteEv p (1/2)] } acc :=
  rfl

/-- The scale packing loop, started from any mid-loop state on a non-empty
remaining list, equals the closed form `scalePackClosed`. Strong induction on
the number of non-final pitches. -/
theorem scalePackGo_eq_closed (tt : String) :
    ∀ (N : ℕ) (M : List MPitch) (p : MPitch) (i counter : ℕ) (cur : Measure)
      (acc : List Measure), M.length = N →
      scalePackGo tt (M ++ [p]) i counter cur acc =
        scalePackClosed tt M p i counter cur acc := by
  intro N
  induction N using Nat.strongRecOn with
  | ind N IH =>
    intro M p i counter cur acc hN
    rcases M with _ | ⟨y, M'⟩
    · rw [List.nil_append, scalePackGo_last]
      by_cases hc : counter % 7 = 0
      · simp [scalePackClosed, hc, chunks7, chunkMeasures]
      · have h1 : (0 : ℕ) < 7 - counter % 7 := by omega
        simp [scalePackClosed, hc, h1, appendEighths_nil]
    · obtain ⟨z, zs, hz⟩ : ∃ z zs, M' ++ [p] = z :: zs := by
        cases M' <;> exact ⟨_, _, rfl⟩
      rw [List.cons_append, hz, scalePackGo_cons, ← hz]
      have hM' : M'.length < N := by
        simp only [List.length_cons] at hN; omega
      have harg : i + 1 + M'.length = i + (y :: M').length := by
        simp only [List.length_cons]; omega
      by_cases hc : counter % 7 = 0
      · rw [if_pos hc, IH M'.length hM' M' p (i + 1) (counter + 1) _ _ rfl]
        have hc1 : (counter + 1) % 7 = 1 := by omega
        by_cases hlen : M'.length < 6
        · have htake : M'.take 6 = M' := List.take_of_length_le (by omega)
          have hdropn : M'.drop 6 = [] := List.drop_eq_nil_of_le (by omega)
          have hL : scalePackClosed tt M' p (i + 1) (counter + 1)
              ⟨if i = 0 then some tt else none, none, false, [mkNoteEv y 1]⟩
              (flushMeasure cur acc) =
              flushMeasure (appendEighths ⟨if i = 0 then some tt else none, none, false,
                [mkNoteEv y 1]⟩ M') (flushMeasure cur acc) ++
                [wholeMeasure tt (i + 1 + M'.length) p] := by
            simp only [scalePackClosed, hc1]
            rw [if_neg (by norm_num), if_pos (by omega)]
          have hR : scalePackClosed tt (y :: M') p i counter cur acc =
              flushMeasure cur acc ++
                [measureOfChunk (if i = 0 then some tt else none) (y :: M')] ++
                [wholeMeasure tt (i + (y :: M').length) p] := by
            simp only [scalePackClosed]
            rw [if_pos hc]
            simp [chunks7, htake, hdropn, chunkMeasures]
          rw [hL, hR, measureOfChunk_eq_appendEighths,
            flushMeasure_append _ _ (by simp [appendEighths_isEmpty]), harg,
            List.append_assoc]
        · have hL : scalePackClosed tt M' p (i + 1) (counter + 1)
              ⟨if i = 0 then some tt else none, none, false, [mkNoteEv y 1]⟩
              (flushMeasure cur acc) =
              flushMeasure (appendEighths ⟨if i = 0 then some tt else none, none, false,
                [mkNoteEv y 1]⟩ (M'.take 6)) (flushMeasure cur acc) ++
                chunkMeasures none (chunks7 (M'.drop 6)) ++
                [wholeMeasure tt (i + 1 + M'.length) p] := by
            simp only [scalePackClosed, hc1]
            rw [if_neg (by norm_num), if_neg (by omega)]
          have hR : scalePackClosed tt (y :: M') p i counter cur acc =
              flushMeasure cur acc ++
                (measureOfChunk (if i = 0 then some tt else none) (y :: M'.take 6) ::
                  chunkMeasures none (chunks7 (M'.drop 6))) ++
                [wholeMeasure tt (i + (y :: M').length) p] := by
            simp only [scalePackClosed]
            rw [if_pos hc]
            simp [chunks7, chunkMeasures]
          rw [hL, hR, measureOfChunk_eq_appendEighths,
            flushMeasure_append _ _ (by simp [appendEighths_isEmpty]), harg]
          simp [List.append_assoc]
      · rw [if_neg hc, IH M'.length hM' M' p (i + 1) (counter + 1) _ _ rfl]
        by_cases hr6 : counter % 7 = 6
        · have hc0 : (counter + 1) % 7 = 0 := by omega
          have hL : scalePackClosed tt M' p (i + 1) (counter + 1)
              { cur with notes := cur.notes ++ [mkNoteEv y (1/2)] } acc =
              flushMeasure { cur with notes := cur.notes ++ [mkNoteEv y (1/2)] } acc ++
                chunkMeasures none (chunks7 M') ++
                [wholeMeasure tt (i + 1 + M'.length) p] := by
            simp only [scalePackClosed, hc0]
            rw [if_pos trivial, if_neg (by omega)]
          have hR : scalePackClosed tt (y :: M') p i counter cur acc =
              flushMeasure (appendEighths cur ((y :: M').take (7 - counter % 7))) acc ++
                chunkMeasures none (chunks7 ((y :: M').drop (7 - counter % 7))) ++
                [wholeMeasure tt (i + (y :: M').length) p] := by
            simp only [scalePackClosed]
            rw [if_neg hc, if_neg (by simp only [List.length_cons, hr6]; omega)]
          rw [hL, hR, hr6]
          have h76 : 7 - 6 = 0 + 1 := by norm_num
          rw [h76, List.take_succ_cons, List.drop_succ_cons, List.take_zero,
            List.drop_zero, harg]
          have hae : appendEighths cur [y] =
              { cur with notes := cur.notes ++ [mkNoteEv y (1/2)] } := by
            simp [appendEighths]
          rw [hae]
        · have hc1 : (counter + 1) % 7 = counter % 7 + 1 := by omega
          by_cases hlen : M'.length < 6 - counter % 7
          · have hL : scalePackClosed tt M' p (i + 1) (counter + 1)
                { cur with notes := cur.notes ++ [mkNoteEv y (1/2)] } acc =
                flushMeasure (appendEighths
                  { cur with notes := cur.notes ++ [mkNoteEv y (1/2)] } M') acc ++
                  [wholeMeasure tt (i + 1 + M'.length) p] := by
              simp only [scalePackClosed, hc1]
              rw [if_neg (by omega), if_pos (by omega)]
            have hR : scalePackClosed tt (y :: M') p i counter cur acc =
                flushMeasure (appendEighths cur (y :: M')) acc ++
                  [wholeMeasure tt (i + (y :: M').length) p] := by
              simp only [scalePackClosed]
              rw [if_neg hc, if_pos (by simp only [List.length_cons]; omega)]
            rw [hL, hR, appendEighths_cons, harg]
          · have hL : scalePackClosed tt M' p (i + 1) (counter + 1)
                { cur with notes := cur.notes ++ [mkNoteEv y (1/2)] } acc =
                flushMeasure (appendEighths
                  { cur with notes := cur.notes ++ [mkNoteEv y (1/2)] }
                  (M'.take (7 - (counter % 7 + 1)))) acc ++
                  chunkMeasures none (chunks7 (M'.drop (7 - (counter % 7 + 1)))) ++
                  [wholeMeasure tt (i + 1 + M'.length) p] := by
              simp only [scalePackClosed, hc1]
              rw [if_neg (by omega), if_neg (by omega)]
            have hR : scalePackClosed tt (y :: M') p i counter cur acc =
                flushMeasure (appendEighths cur ((y :: M').take (7 - counter % 7))) acc ++
                  chunkMeasures none (chunks7 ((y :: M').drop (7 - counter % 7))) ++
                  [wholeMeasure tt (i + (y :: M').length) p] := by
              simp only [scalePackClosed]
              rw [if_neg hc, if_neg (by simp only [List.length_cons]; omega)]
            rw [hL, hR]
            have h7r : 7 - counter % 7 = (6 - counter % 7) + 1 := by omega
            have h7r' : 7 - (counter % 7 + 1) = 6 - counter % 7 := by omega
            rw [h7r, h7r', List.take_succ_cons, List.drop_succ_cons,
              appendEighths_cons, harg]

theorem chunks7_forall_ne (M : List MPitch) : ∀ c ∈ chunks7 M, c ≠ [] := by
  induction M using chunks7.induct with
  | case1 => simp [chunks7]
  | case2 p rest ih =>
      intro c hc
      rw [chunks7] at hc
      rcases List.mem_cons.mp hc with rfl | hmem
      · simp
      · exact ih c hmem

theorem chunks7_forall_le (M : List MPitch) : ∀ c ∈ chunks7 M, c.length ≤ 7 := by
  induction M using chunks7.induct with
  | case1 => simp [chunks7]
  | case2 p rest ih =>
      intro c hc
      rw [chunks7] at hc
      rcases List.mem_cons.mp hc with rfl | hmem
      · simp only [List.length_cons]
        have := List.length_take_le 6 rest
        omega
      · exact ih c hmem

theorem chunks7_flatten (M : List MPitch) : (chunks7 M).flatten = M := by
  induction M using chunks7.induct with
  | case1 => simp [chunks7]
  | case2 p rest ih =>
      rw [chunks7]
      simp only [List.flatten_cons, ih, List.cons_append]
      rw [List.take_append_drop]

/-- `chunks7 M` is empty only for empty `M`. -/
theorem chunks7_eq_nil_iff (M : List MPitch) : chunks7 M = [] ↔ M = [] := by
  cases M with
  | nil => simp [chunks7]
  | cons p rest => rw [chunks7]; simp

theorem chunkMeasures_none_titles (cs : List (List MPitch)) :
    (chunkMeasures none cs).map Measure.title = List.replicate cs.length none := by
  induction cs with
  | nil => simp [chunkMeasures]
  | cons c cs ih => simp [chunkMeasures, measureOfChunk, ih, List.replicate_succ]

theorem chunkMeasures_length (tt0 : Option String) (cs : List (List MPitch)) :
    (chunkMeasures tt0 cs).length = cs.length := by
  induction cs generalizing tt0 with
  | nil => simp [chunkMeasures]
  | cons c cs ih => simp [chunkMeasures, ih]

theorem chunkMeasures_mem {m : Measure} {tt0 : Option String}
    {cs : List (List MPitch)} (hm : m ∈ chunkMeasures tt0 cs) :
    ∃ tt' c, c ∈ cs ∧ m = measureOfChunk tt' c := by
  induction cs generalizing tt0 with
  | nil => simp [chunkMeasures] at hm
  | cons c cs ih =>
      rw [chunkMeasures] at hm
      rcases List.mem_cons.mp hm with rfl | hmem
      · exact ⟨tt0, c, List.mem_cons_self .., rfl⟩
      · obtain ⟨tt', c', hc', hm'⟩ := ih hmem
        exact ⟨tt', c', List.mem_cons_of_mem _ hc', hm'⟩

theorem chunkMeasures_pitches (tt0 : Option String) (cs : List (List MPitch)) :
    ((chunkMeasures tt0 cs).flatMap Measure.notes).map NoteEv.pitch =
      cs.flatten.map fixPitch := by
  induction cs generalizing tt0 with
  | nil => simp [chunkMeasures]
  | cons c cs ih =>
      simp only [chunkMeasures, List.flatMap_cons, List.flatten_cons, List.map_append, ih]
      congr 1
      cases c <;> simp [measureOfChunk, mkNoteEv]

theorem chunkMeasures_note_lengths (tt0 : Option String) (cs : List (List MPitch)) :
    (chunkMeasures tt0 cs).map (fun m => m.notes.length) = cs.map List.length := by
  induction cs generalizing tt0 with
  | nil => simp [chunkMeasures]
  | cons c cs ih =>
      simp only [chunkMeasures, List.map_cons, ih]
      congr 1
      cases c <;> simp [measureOfChunk]

/-- Lengths of the chunks of a list of length `n`. -/
def chunkLens (n : ℕ) : List ℕ :=
  if n = 0 then [] else min n 7 :: chunkLens (n - 7)
termination_by n
decreasing_by omega

theorem chunks7_lengths (M : List MPitch) :
    (chunks7 M).map List.length = chunkLens M.length := by
  induction M using chunks7.induct with
  | case1 => rw [chunks7, chunkLens]; simp
  | case2 p rest ih =>
      rw [chunks7, chunkLens]
      simp only [List.length_cons, List.map_cons, ih]
      have h1 : ¬(rest.length + 1 = 0) := by omega
      rw [if_neg h1]
      have h2 : (List.take 6 rest).length + 1 = min (rest.length + 1) 7 := by
        simp only [List.length_take]
        omega
      have h3 : (List.drop 6 rest).length = rest.length + 1 - 7 := by
        simp only [List.length_drop]
        omega
      rw [h2, h3]

/-- The scale packing loop started fresh: the all-but-last pitches in quarter-
then-eighths chunks of 7 (title on the first), then the final whole-note
measure. -/
theorem scalePack_closed_form (tt : String) (M : List MPitch) (p : MPitch) :
    scalePackGo tt (M ++ [p]) 0 0 emptyMeasure [] =
      chunkMeasures (some tt) (chunks7 M) ++ [wholeMeasure tt M.length p] := by
  rw [scalePackGo_eq_closed tt M.length M p 0 0 emptyMeasure [] rfl]
  simp [scalePackClosed, flushMeasure, emptyMeasure]

/-- C2: packing any non-empty pitch sequence as a scale (capacity 7): the
first emitted measure (and only it) carries the title; no measure is empty;
every measure before the last has at most 7 notes, a quarter first note and
eighth notes after it; the final pitch goes alone into a new whole-note
measure (which carries the title exactly when the sequence is a single
pitch); the packed notes are the respelled input pitches in order; and a
15-pitch sequence yields measures of 7, 7 and 1 notes. -/
theorem scale_measure_packer_spec (tt : String) (L : List MPitch) (h : L ≠ []) :
    (scalePackGo tt L 0 0 emptyMeasure []).map Measure.title =
      some tt :: List.replicate ((scalePackGo tt L 0 0 emptyMeasure []).length - 1) none ∧
    (∀ m ∈ scalePackGo tt L 0 0 emptyMeasure [], m.notes ≠ []) ∧
    (∀ m ∈ (scalePackGo tt L 0 0 emptyMeasure []).dropLast, m.notes.length ≤ 7 ∧
      m.notes.map NoteEv.dur = 1 :: List.replicate (m.notes.length - 1) (1/2)) ∧
    (scalePackGo tt L 0 0 emptyMeasure []).getLast? = L.getLast?.map (fun p =>
      (⟨if L.length = 1 then some tt else none, none, false, [mkNoteEv p 4]⟩ : Measure)) ∧
    ((scalePackGo tt L 0 0 emptyMeasure []).flatMap Measure.notes).map NoteEv.pitch =
      L.map fixPitch ∧
    (L.length = 15 →
      (scalePackGo tt L 0 0 emptyMeasure []).map (fun m => m.notes.length) = [7, 7, 1]) := by
  obtain ⟨M, p, rfl⟩ : ∃ M p, L = M ++ [p] :=
    ⟨L.dropLast, L.getLast h, (List.dropLast_concat_getLast h).symm⟩
  have hms := scalePack_closed_form tt M p
  refine ⟨?_, ?_, ?_, ?_, ?_, ?_⟩
  · rw [hms, List.map_append]
    rcases hM : M with _ | ⟨y, M'⟩
    · simp [chunks7, chunkMeasures, wholeMeasure]
    · rw [← hM]
      have hMne : M ≠ [] := by rw [hM]; simp
      rcases hch : chunks7 M with _ | ⟨c, cs⟩
      · exact absurd ((chunks7_eq_nil_iff M).mp hch) hMne
      · have hlen0 : ¬(M.length = 0) := by
          simp only [List.length_eq_zero]; exact hMne
        simp only [chunkMeasures, List.map_cons, measureOfChunk,
          chunkMeasures_none_titles, wholeMeasure, if_neg hlen0, List.map_nil,
          List.length_cons, List.length_append, chunkMeasures_length,
          List.length_singleton]
        simp only [List.length_nil, Nat.zero_add, Nat.add_sub_cancel]
        rw [List.replicate_succ']
        simp
  · rw [hms]
    intro m hm
    rcases List.mem_append.mp hm with hmem | hmem
    · obtain ⟨tt', c, hc, rfl⟩ := chunkMeasures_mem hmem
      have hcne := chunks7_forall_ne M c hc
      rcases c with _ | ⟨y, ys⟩
      · exact absurd rfl hcne
      · simp [measureOfChunk]
    · rcases List.mem_singleton.mp hmem with rfl
      simp [wholeMeasure]
  · rw [hms, List.dropLast_concat]
    intro m hm
    obtain ⟨tt', c, hc, rfl⟩ := chunkMeasures_mem hm
    have hcne := chunks7_forall_ne M c hc
    have hcle := chunks7_forall_le M c hc
    rcases c with _ | ⟨y, ys⟩
    · exact absurd rfl hcne
    · constructor
      · simpa [measureOfChunk] using hcle
      · simp [measureOfChunk, mkNoteEv, Function.comp_def, List.map_const']
  · rw [hms, List.getLast?_concat, List.getLast?_concat]
    by_cases hM0 : M.length = 0
    · simp [wholeMeasure, hM0]
    · simp [wholeMeasure, hM0]
  · rw [hms, List.flatMap_append, List.map_append, chunkMeasures_pitches,
      chunks7_flatten, List.map_append]
    simp [wholeMeasure, mkNoteEv]
  · intro h15
    have hM14 : M.length = 14 := by
      have := List.length_append M [p]
      simp only [List.length_singleton] at this
      omega
    rw [hms, List.map_append, chunkMeasures_note_lengths, chunks7_lengths, hM14]
    have hlens : chunkLens 14 = [7, 7] := by
      rw [chunkLens]
      norm_num
      rw [chunkLens]
      norm_num
      rw [chunkLens]
      norm_num
    rw [hlens]
    simp [wholeMeasure]

/-- Witness for `scale_measure_packer_spec`: the 15-pitch C major scale
sequence with a concrete title. -/
theorem scale_measure_packer_spec_witness :
    (scalePackGo "C Major Scale" (scaleAllPitches Letter.C 0 4 1) 0 0
        emptyMeasure []).map Measure.title =
      some "C Major Scale" :: List.replicate ((scalePackGo "C Major Scale"
        (scaleAllPitches Letter.C 0 4 1) 0 0 emptyMeasure []).length - 1) none ∧
    (∀ m ∈ scalePackGo "C Major Scale" (scaleAllPitches Letter.C 0 4 1) 0 0
        emptyMeasure [], m.notes ≠ []) ∧
    (∀ m ∈ (scalePackGo "C Major Scale" (scaleAllPitches Letter.C 0 4 1) 0 0
        emptyMeasure []).dropLast, m.notes.length ≤ 7 ∧
      m.notes.map NoteEv.dur = 1 :: List.replicate (m.notes.length - 1) (1/2)) ∧
    (scalePackGo "C Major Scale" (scaleAllPitches Letter.C 0 4 1) 0 0
        emptyMeasure []).getLast? =
      (scaleAllPitches Letter.C 0 4 1).getLast?.map (fun p =>
        (⟨if (scaleAllPitches Letter.C 0 4 1).length = 1 then some "C Major Scale"
          else none, none, false, [mkNoteEv p 4]⟩ : Measure)) ∧
    ((scalePackGo "C Major Scale" (scaleAllPitches Letter.C 0 4 1) 0 0
        emptyMeasure []).flatMap Measure.notes).map NoteEv.pitch =
      (scaleAllPitches Letter.C 0 4 1).map fixPitch ∧
    ((scaleAllPitches Letter.C 0 4 1).length = 15 →
      (scalePackGo "C Major Scale" (scaleAllPitches Letter.C 0 4 1) 0 0
        emptyMeasure []).map (fun m => m.notes.length) = [7, 7, 1]) :=
  scale_measure_packer_spec "C Major Scale" (scaleAllPitches Letter.C 0 4 1) (by decide)

/-- One octave's contribution to the arpeggio ascent
(`create_arpeggio_measures`, lines 170–184): fetch root (index `7*o`), third
(`+2`), fifth (`+4`), and for the last octave also the upper octave tone
(`+7`); the `try/except IndexError: pass` wraps all the fetches and the
`extend`, so a single out-of-range index drops the whole octave's tones. -/
def octaveContrib (scale_pitches : List MPitch) (num_octaves o : ℕ) : List MPitch :=
  let base_idx := 7 * o
  match scale_pitches[base_idx]?, scale_pitches[base_idx + 2]?,
      scale_pitches[base_idx + 4]? with
  | some root, some third, some fifth =>
      if o < num_octaves - 1 then [root, third, fifth]
      else
        match scale_pitches[base_idx + 7]? with
        | some octave_tone => [root, third, fifth, octave_tone]
        | none => []
  | _, _, _ => []

/-- `arpeggio_up`: the octave contributions in order. -/
def arpeggioUpFrom (scale_pitches : List MPitch) (num_octaves : ℕ) : List MPitch :=
  (List.range num_octaves).flatMap (octaveContrib scale_pitches num_octaves)

/-- `all_arpeggio_pitches`:
`arpeggio_up + (list(reversed(arpeggio_up[:-1])) if len(arpeggio_up) > 1 else [])`. -/
def arpAllPitches (scale_pitches : List MPitch) (num_octaves : ℕ) : List MPitch :=
  let arpeggio_up := arpeggioUpFrom scale_pitches num_octaves
  arpeggio_up ++ (if arpeggio_up.length > 1 then arpeggio_up.dropLast.reverse else [])

/-- The arpeggio measure-packing loop (lines 189–224): capacity 8; at an
aligned counter the open measure is flushed and a fresh one (titled at index
0) opened; every non-final note is an eighth appended after that choice; the
final pitch goes alone into a new whole-note measure. -/
def arpPackGo (title_text : String) :
    List MPitch → ℕ → ℕ → Measure → List Measure → List Measure
  | [], _, _, _, acc => acc
  | [p], i, _, cur, acc =>
      flushMeasure cur acc ++
        [{ title := if i = 0 then some title_text else none,
           clefIns := none, keyIns := false, notes := [mkNoteEv p 4] }]
  | p :: q :: rest, i, counter, cur, acc =>
      let state :=
        if counter % 8 = 0 then
          (({ title := if i = 0 then some title_text else none,
              clefIns := none, keyIns := false, notes := [] } : Measure),
           flushMeasure cur acc)
        else (cur, acc)
      arpPackGo title_text (q :: rest) (i + 1) (counter + 1)
        { state.1 with notes := state.1.notes ++ [mkNoteEv p (1/2)] } state.2

/-- `create_arpeggio_measures` from `app.py`. -/
def create_arpeggio_measures (title_text : String) (t : Letter) (a : ℤ)
    (octave_start num_octaves : ℕ) : List Measure :=
  arpPackGo title_text
    (arpAllPitches (getPitchesMajor t a octave_start num_octaves) num_octaves)
    0 0 emptyMeasure []

theorem getPitchesMajor_getElem (t : Letter) (a : ℤ) (o0 n k : ℕ)
    (hk : k < 7 * n + 1) :
    (getPitchesMajor t a o0 n)[k]? = some (scaleDegreePitch t a o0 k) := by
  simp [getPitchesMajor, List.getElem?_map, List.getElem?_range, hk]

/-- With the full diatonic pitch list available, every octave in range
contributes its root/third/fifth (plus the octave tone in the last one). -/
theorem octaveContrib_full (t : Letter) (a : ℤ) (o0 n o : ℕ) (ho : o < n) :
    octaveContrib (getPitchesMajor t a o0 n) n o =
      if o < n - 1 then
        [scaleDegreePitch t a o0 (7 * o), scaleDegreePitch t a o0 (7 * o + 2),
         scaleDegreePitch t a o0 (7 * o + 4)]
      else
        [scaleDegreePitch t a o0 (7 * o), scaleDegreePitch t a o0 (7 * o + 2),
         scaleDegreePitch t a o0 (7 * o + 4), scaleDegreePitch t a o0 (7 * o + 7)] := by
  have h0 := getPitchesMajor_getElem t a o0 n (7 * o) (by omega)
  have h2 := getPitchesMajor_getElem t a o0 n (7 * o + 2) (by omega)
  have h4 := getPitchesMajor_getElem t a o0 n (7 * o + 4) (by omega)
  by_cases hlast : o < n - 1
  · simp [octaveContrib, h0, h2, h4, hlast]
  · have h7 := getPitchesMajor_getElem t a o0 n (7 * o + 7) (by omega)
    simp [octaveContrib, h0, h2, h4, h7, hlast]

theorem flatMap_length_eq {α : Type} (g : ℕ → List α) (l : List ℕ) (k : ℕ)
    (h : ∀ x ∈ l, (g x).length = k) : (l.flatMap g).length = k * l.length := by
  induction l with
  | nil => simp
  | cons x xs ih =>
      simp only [List.flatMap_cons, List.length_append, h x (List.mem_cons_self ..),
        List.length_cons, ih (fun y hy => h y (List.mem_cons_of_mem _ hy))]
      ring

/-- Length of the arpeggio ascent over the full scale: `3*(n-1) + 4`. -/
theorem arpeggioUpFrom_length (t : Letter) (a : ℤ) (o0 n : ℕ) (hn : 1 ≤ n) :
    (arpeggioUpFrom (getPitchesMajor t a o0 n) n).length = 3 * (n - 1) + 4 := by
  obtain ⟨m, rfl⟩ : ∃ m, n = m + 1 := ⟨n - 1, by omega⟩
  rw [arpeggioUpFrom, List.range_succ, List.flatMap_append]
  simp only [List.flatMap_cons, List.flatMap_nil, List.append_nil, List.length_append]
  have hothers :
      ((List.range m).flatMap (octaveContrib (getPitchesMajor t a o0 (m + 1)) (m + 1))).length
        = 3 * m := by
    have hh := flatMap_length_eq
      (octaveContrib (getPitchesMajor t a o0 (m + 1)) (m + 1)) (List.range m) 3
      (fun x hx => by
        have hxm : x < m := List.mem_range.mp hx
        rw [octaveContrib_full t a o0 (m + 1) x (by omega), if_pos (by omega)]
        rfl)
    simpa using hh
  have hlastc :
      (octaveContrib (getPitchesMajor t a o0 (m + 1)) (m + 1) m).length = 4 := by
    rw [octaveContrib_full t a o0 (m + 1) m (by omega), if_neg (by omega)]
    rfl
  rw [hothers, hlastc]
  omega

/-- C3: with the full diatonic scale pitches, the arpeggio ascent is
root/third/fifth per octave with the upper octave tone appended only after
the last octave's fifth, `3*(n-1) + 4` tones in all; the full sequence is the
ascent plus the reverse of the ascent without its final pitch, of length
`2*(3*(n-1)+4) - 1`; for two octaves that is 13. -/
theorem arpeggio_sequencer_spec (t : Letter) (a : ℤ) (o0 n : ℕ) (hn : 1 ≤ n) :
    arpeggioUpFrom (getPitchesMajor t a o0 n) n = (List.range n).flatMap (fun o =>
      if o < n - 1 then
        [scaleDegreePitch t a o0 (7 * o), scaleDegreePitch t a o0 (7 * o + 2),
         scaleDegreePitch t a o0 (7 * o + 4)]
      else
        [scaleDegreePitch t a o0 (7 * o), scaleDegreePitch t a o0 (7 * o + 2),
         scaleDegreePitch t a o0 (7 * o + 4), scaleDegreePitch t a o0 (7 * o + 7)]) ∧
    (arpeggioUpFrom (getPitchesMajor t a o0 n) n).length = 3 * (n - 1) + 4 ∧
    arpAllPitches (getPitchesMajor t a o0 n) n =
      arpeggioUpFrom (getPitchesMajor t a o0 n) n ++
        (arpeggioUpFrom (getPitchesMajor t a o0 n) n).dropLast.reverse ∧
    (arpAllPitches (getPitchesMajor t a o0 n) n).length = 2 * (3 * (n - 1) + 4) - 1 ∧
    (n = 2 → (arpAllPitches (getPitchesMajor t a o0 n) n).length = 13) := by
  have hup := arpeggioUpFrom_length t a o0 n hn
  have hgt : (arpeggioUpFrom (getPitchesMajor t a o0 n) n).length > 1 := by omega
  have hall : arpAllPitches (getPitchesMajor t a o0 n) n =
      arpeggioUpFrom (getPitchesMajor t a o0 n) n ++
        (arpeggioUpFrom (getPitchesMajor t a o0 n) n).dropLast.reverse := by
    rw [arpAllPitches, if_pos hgt]
  refine ⟨?_, hup, hall, ?_, ?_⟩
  · rw [arpeggioUpFrom, List.flatMap]
    congr 1
    refine List.map_congr_left fun o ho => ?_
    exact octaveContrib_full t a o0 n o (List.mem_range.mp ho)
  · rw [hall]
    simp only [List.length_append, List.length_reverse, List.length_dropLast, hup]
    omega
  · rintro rfl
    rw [hall]
    simp only [List.length_append, List.length_reverse, List.length_dropLast, hup]

/-- Witness for `arpeggio_sequencer_spec`: C major, two octaves. -/
theorem arpeggio_sequencer_spec_witness :
    arpeggioUpFrom (getPitchesMajor Letter.C 0 4 2) 2 = (List.range 2).flatMap (fun o =>
      if o < 2 - 1 then
        [scaleDegreePitch Letter.C 0 4 (7 * o), scaleDegreePitch Letter.C 0 4 (7 * o + 2),
         scaleDegreePitch Letter.C 0 4 (7 * o + 4)]
      else
        [scaleDegreePitch Letter.C 0 4 (7 * o), scaleDegreePitch Letter.C 0 4 (7 * o + 2),
         scaleDegreePitch Letter.C 0 4 (7 * o + 4),
         scaleDegreePitch Letter.C 0 4 (7 * o + 7)]) ∧
    (arpeggioUpFrom (getPitchesMajor Letter.C 0 4 2) 2).length = 3 * (2 - 1) + 4 ∧
    arpAllPitches (getPitchesMajor Letter.C 0 4 2) 2 =
      arpeggioUpFrom (getPitchesMajor Letter.C 0 4 2) 2 ++
        (arpeggioUpFrom (getPitchesMajor Letter.C 0 4 2) 2).dropLast.reverse ∧
    (arpAllPitches (getPitchesMajor Letter.C 0 4 2) 2).length = 2 * (3 * (2 - 1) + 4) - 1 ∧
    ((2 : ℕ) = 2 → (arpAllPitches (getPitchesMajor Letter.C 0 4 2) 2).length = 13) :=
  arpeggio_sequencer_spec Letter.C 0 4 2 (by decide)

theorem flatMap_filter_ne (g : ℕ → List MPitch) (o : ℕ) (hg : g o = [])
    (l : List ℕ) : l.flatMap g = (l.filter (fun x => x ≠ o)).flatMap g := by
  induction l with
  | nil => rfl
  | cons x xs ih =>
      by_cases hx : x = o
      · subst hx
        simp [List.filter_cons, hg, ih]
      · simp [List.filter_cons, hx, ih]

/-- The arpeggio packing loop never returns an empty stream on non-empty
input (it always ends by appending the whole-note measure). -/
theorem arpPackGo_ne_nil (tt : String) :
    ∀ (L : List MPitch) (i c : ℕ) (cur : Measure) (acc : List Measure),
      L ≠ [] → arpPackGo tt L i c cur acc ≠ [] := by
  intro L
  induction L with
  | nil => intro i c cur acc h; exact absurd rfl h
  | cons p rest ih =>
      intro i c cur acc _
      cases rest with
      | nil => simp [arpPackGo]
      | cons q rest' =>
          rw [arpPackGo]
          exact ih _ _ _ _ (by simp)

/-- C9: in the arpeggio construction, an octave whose root/third/fifth index
(or, in the last octave, the octave-tone index) exceeds the available scale
pitches contributes nothing at all — not a prefix — no error is raised, and
the remaining octaves' shorter sequence is still produced and packs into a
non-empty measure stream. -/
theorem arpeggio_overrun_spec (sp : List MPitch) (n o : ℕ) (tt : String)
    (ho : o < n)
    (hover : sp.length ≤ 7 * o + 4 ∨ (¬(o < n - 1) ∧ sp.length ≤ 7 * o + 7)) :
    octaveContrib sp n o = [] ∧
    arpeggioUpFrom sp n =
      ((List.range n).filter (fun x => x ≠ o)).flatMap (octaveContrib sp n) ∧
    (arpAllPitches sp n ≠ [] →
      arpPackGo tt (arpAllPitches sp n) 0 0 emptyMeasure [] ≠ []) := by
  have hcontrib : octaveContrib sp n o = [] := by
    rcases hover with h | ⟨hlast, h⟩
    · have h4 : sp[7 * o + 4]? = none := List.getElem?_eq_none (by omega)
      cases h0 : sp[7 * o]? <;> cases h2 : sp[7 * o + 2]? <;>
        simp [octaveContrib, h0, h2, h4]
    · have h7 : sp[7 * o + 7]? = none := List.getElem?_eq_none (by omega)
      cases h0 : sp[7 * o]? <;> cases h2 : sp[7 * o + 2]? <;>
        cases h4 : sp[7 * o + 4]? <;>
        simp [octaveContrib, h0, h2, h4, h7, hlast]
  exact ⟨hcontrib, flatMap_filter_ne _ o hcontrib _,
    fun hne => arpPackGo_ne_nil tt _ 0 0 _ _ hne⟩

/-- Witness for `arpeggio_overrun_spec`: a one-octave pitch list asked for
two octaves — the second octave is skipped whole. -/
theorem arpeggio_overrun_spec_witness :
    octaveContrib (getPitchesMajor Letter.C 0 4 1) 2 1 = [] ∧
    arpeggioUpFrom (getPitchesMajor Letter.C 0 4 1) 2 =
      ((List.range 2).filter (fun x => x ≠ 1)).flatMap
        (octaveContrib (getPitchesMajor Letter.C 0 4 1) 2) ∧
    (arpAllPitches (getPitchesMajor Letter.C 0 4 1) 2 ≠ [] →
      arpPackGo "t" (arpAllPitches (getPitchesMajor Letter.C 0 4 1) 2) 0 0
        emptyMeasure [] ≠ []) :=
  arpeggio_overrun_spec (getPitchesMajor Letter.C 0 4 1) 2 1 "t" (by decide) (by decide)

/-- Result of `determine_clef_and_octave`: a single (clef, octave) pair, or —
for Piano — the dict with a profile per hand. -/
inductive ClefOctaveResult where
  | single (clefName : String) (octave : ℕ)
  | forHands (right left : String × ℕ)
  deriving DecidableEq, Repr

/-- The unpitched-percussion set of `determine_clef_and_octave`. -/
def unpitched_percussion : List String :=
  ["Bass Drum", "Cymbals", "Snare Drum", "Triangle", "Tambourine"]

/-- The static instrument table of `determine_clef_and_octave`. -/
def instrument_map : List (String × String × ℕ) :=
  [("Violin", "TrebleClef", 3),
   ("Viola", "AltoClef", 3),
   ("Cello", "BassClef", 2),
   ("Double Bass", "BassClef", 1),
   ("Guitar", "TrebleClef", 3),
   ("Harp", "TrebleClef", 3),
   ("Alto Saxophone", "TrebleClef", 4),
   ("Bass Clarinet", "TrebleClef", 2),
   ("Bassoon", "BassClef", 2),
   ("Clarinet", "TrebleClef", 3),
   ("English Horn", "TrebleClef", 4),
   ("Flute", "TrebleClef", 4),
   ("Oboe", "TrebleClef", 4),
   ("Piccolo", "TrebleClef", 5),
   ("Tenor Saxophone", "TrebleClef", 3),
   ("Trumpet", "TrebleClef", 4),
   ("Euphonium", "BassClef", 2),
   ("French Horn", "TrebleClef", 3),
   ("Trombone", "BassClef", 2),
   ("Tuba", "BassClef", 1),
   ("Marimba", "TrebleClef", 3),
   ("Timpani", "BassClef", 3),
   ("Vibraphone", "TrebleClef", 3),
   ("Xylophone", "TrebleClef", 4),
   ("Electric Piano", "TrebleClef", 4),
   ("Organ", "TrebleClef", 4),
   ("Voice", "TrebleClef", 4)]

/-- `determine_clef_and_octave` from `app.py`. The `part` argument
('right'/'left', `'right'` at the only call site) is accepted but never
consulted. Piano returns the two-hand dict; unpitched percussion gets the
percussion clef; otherwise the static table with a Treble/4 default. -/
def determine_clef_and_octave (instrument_name : String) (part : String) :
    ClefOctaveResult :=
  if instrument_name = "Piano" then
    ClefOctaveResult.forHands ("TrebleClef", 4) ("BassClef", 2)
  else if instrument_name ∈ unpitched_percussion then
    ClefOctaveResult.single "PercussionClef" 4
  else
    match instrument_map.lookup instrument_name with
    | some (c, o) => ClefOctaveResult.single c o
    | none => ClefOctaveResult.single "TrebleClef" 4

/-- The caller-side hand selection in
`create_part_for_single_key_scales_arpeggios` (lines 239–243):
`clef_octave.get('right', ("TrebleClef", 4))` when the dict came back (the
key `'right'` is always present), else the tuple itself. -/
def selectedClefOctave (instrument_name : String) : String × ℕ :=
  match determine_clef_and_octave instrument_name "right" with
  | ClefOctaveResult.forHands right _ => right
  | ClefOctaveResult.single c o => (c, o)

/-- An element of a music21 `Part` stream, in insertion order. -/
inductive PartElem where
  | instr (name : String)
  | sysBreak
  | meas (m : Measure)
  deriving DecidableEq, Repr

/-- A music21 `Part` is its elements in order (the two `insert(0, ...)`
calls put the instrument and the leading system break before the appended
measures). -/
abbrev MPart := List PartElem

/-- A music21 `Score` is its parts in order. -/
abbrev MScore := List MPart

/-- The measures of a part, in order. -/
def partMeasures (p : MPart) : List Measure :=
  p.filterMap (fun e => match e with | PartElem.meas m => some m | _ => none)

/-- `first_m.insert(0, getattr(clef, selected_clef)()); first_m.insert(0,
major_key_obj)` on the scale block (empty block untouched, as the
`if scale_measures:` guard skips it). -/
def annotateFirstScale (selected_clef : String) : List Measure → List Measure
  | [] => []
  | m :: rest => { m with clefIns := some selected_clef, keyIns := true } :: rest

/-- `first_arp.insert(0, major_key_obj)` on the arpeggio block — only the key
signature, no clef. -/
def annotateFirstKey : List Measure → List Measure
  | [] => []
  | m :: rest => { m with keyIns := true } :: rest

def letterStr : Letter → String
  | .C => "C" | .D => "D" | .E => "E" | .F => "F" | .G => "G" | .A => "A" | .B => "B"

/-- The spelled key-signature name (e.g. "F#", "Eb") of a tonic spelling; the
key-signature strings of the request are represented structurally by their
letter/alteration pair. -/
def keyName (key_signature : Letter × ℤ) : String :=
  letterStr key_signature.1 ++
    (if 0 ≤ key_signature.2 then
      String.mk (List.replicate key_signature.2.toNat '#')
    else
      String.mk (List.replicate (-key_signature.2).toNat 'b'))

/-- `create_part_for_single_key_scales_arpeggios` from `app.py`: instrument
object and one system break inserted at offset 0; the scale measures with
clef and key signature inserted into the first; an appended system break;
then the arpeggio measures with only the key signature inserted into the
first. Nothing is appended after the arpeggio block. -/
def create_part_for_single_key_scales_arpeggios (key_signature : Letter × ℤ)
    (num_octaves : ℕ) (instrument_name : String) : MPart :=
  let selected := selectedClefOctave instrument_name
  let scale_measures := create_scale_measures (keyName key_signature ++ " Major Scale")
    key_signature.1 key_signature.2 selected.2 num_octaves
  let arpeggio_measures := create_arpeggio_measures
    (keyName key_signature ++ " Major Arpeggio")
    key_signature.1 key_signature.2 selected.2 num_octaves
  [PartElem.instr instrument_name, PartElem.sysBreak] ++
    (annotateFirstScale selected.1 scale_measures).map PartElem.meas ++
    [PartElem.sysBreak] ++
    (annotateFirstKey arpeggio_measures).map PartElem.meas

/-- `EASIEST_NOTE_MAP` from `app.py`. -/
def EASIEST_NOTE_MAP : List (String × String) :=
  [("Piano", "C4"),
   ("Alto Saxophone", "D4"),
   ("Violin", "G3"),
   ("Flute", "G4"),
   ("Clarinet", "E4")]

def letterOfChar (c : Char) : Letter :=
  if c = 'C' then .C else if c = 'D' then .D else if c = 'E' then .E
  else if c = 'F' then .F else if c = 'G' then .G else if c = 'A' then .A
  else .B

/-- `note.Note(name)` for the simple letter-plus-digit names that occur in
the easy-note table (all naturals with a single-digit octave). -/
def noteFromString (s : String) : MPitch :=
  match s.toList with
  | [c, d] => ⟨letterOfChar c, 0, (d.toNat : ℤ) - 48, false, false⟩
  | _ => ⟨.C, 0, 4, false, false⟩

/-- `create_custom_rhythm_part` from `app.py`: instrument and one system
break at offset 0; one measure per inner duration list, the first carrying
the title; each duration value becomes a note at the instrument's easiest
pitch (`EASIEST_NOTE_MAP`, default "C4") respelled by the speller, with
quarter-length `val * 4`. -/
def create_custom_rhythm_part (title_text : String) (custom_rhythm : List (List ℚ))
    (instrument_name : String) : MPart :=
  let easiest_note := (EASIEST_NOTE_MAP.lookup instrument_name).getD "C4"
  [PartElem.instr instrument_name, PartElem.sysBreak] ++
    custom_rhythm.mapIdx (fun measure_index measure_durations =>
      PartElem.meas
        { title := if measure_index = 0 then some title_text else none,
          clefIns := none, keyIns := false,
          notes := measure_durations.map (fun val =>
            ⟨fixPitch (noteFromString easiest_note), val * 4⟩) })

/-- The score built by `generate_scales_arpeggios_pdf` before the external
PDF rendering: one part per requested key. -/
def generate_scales_arpeggios_score (keys : List (Letter × ℤ)) (num_octaves : ℕ)
    (instrument_name : String) : MScore :=
  keys.map (fun key_sig =>
    create_part_for_single_key_scales_arpeggios key_sig num_octaves instrument_name)

/-- The score built by `generate_custom_rhythm_pdf` before the external PDF
rendering: always exactly the one custom-rhythm part. -/
def generate_custom_rhythm_score (title : String) (custom_rhythm_example : List (List ℚ))
    (instrument_name : String) : MScore :=
  [create_custom_rhythm_part title custom_rhythm_example instrument_name]

theorem scaleAllPitches_ne_nil (t : Letter) (a : ℤ) (o n : ℕ) :
    scaleAllPitches t a o n ≠ [] := by
  intro h
  rcases List.append_eq_nil.mp h with ⟨h1, _⟩
  simp only [getPitchesMajor, List.map_eq_nil_iff, List.range_eq_nil] at h1
  omega

/-- The scale packing loop never returns an empty stream on non-empty input. -/
theorem scalePackGo_ne_nil (tt : String) :
    ∀ (L : List MPitch) (i c : ℕ) (cur : Measure) (acc : List Measure),
      L ≠ [] → scalePackGo tt L i c cur acc ≠ [] := by
  intro L
  induction L with
  | nil => intro i c cur acc h; exact absurd rfl h
  | cons p rest ih =>
      intro i c cur acc _
      cases rest with
      | nil =>
          rw [scalePackGo_last]
          simp
      | cons q rest' =>
          rw [scalePackGo_cons]
          by_cases hc : c % 7 = 0
          · rw [if_pos hc]; exact ih _ _ _ _ (by simp)
          · rw [if_neg hc]; exact ih _ _ _ _ (by simp)

theorem arpPackGo_last (tt : String) (p : MPitch) (i counter : ℕ) (cur : Measure)
    (acc : List Measure) :
    arpPackGo tt [p] i counter cur acc =
      flushMeasure cur acc ++ [wholeMeasure tt i p] :=
  rfl

theorem arpPackGo_cons (tt : String) (p q : MPitch) (rest : List MPitch)
    (i counter : ℕ) (cur : Measure) (acc : List Measure) :
    arpPackGo tt (p :: q :: rest) i counter cur acc =
      if counter % 8 = 0 then
        arpPackGo tt (q :: rest) (i + 1) (counter + 1)
          ⟨if i = 0 then some tt else none, none, false, [mkNoteEv p (1/2)]⟩
          (flushMeasure cur acc)
      else
        arpPackGo tt (q :: rest) (i + 1) (counter + 1)
          { cur with notes := cur.notes ++ [mkNoteEv p (1/2)] } acc := by
  rw [arpPackGo]
  by_cases hc : counter % 8 = 0 <;> simp [hc]

theorem mem_flushMeasure {m cur : Measure} {acc : List Measure}
    (h : m ∈ flushMeasure cur acc) : m ∈ acc ∨ m = cur := by
  rw [flushMeasure] at h
  split at h
  · exact Or.inl h
  · rcases List.mem_append.mp h with h1 | h1
    · exact Or.inl h1
    · exact Or.inr (List.mem_singleton.mp h1)

/-- No measure produced by the arpeggio packing loop ever carries a clef
(only the part assembler inserts clefs, and only into the scale block). -/
theorem arpPackGo_clefIns (tt : String) :
    ∀ (L : List MPitch) (i c : ℕ) (cur : Measure) (acc : List Measure),
      cur.clefIns = none → (∀ m ∈ acc, m.clefIns = none) →
      ∀ m ∈ arpPackGo tt L i c cur acc, m.clefIns = none := by
  intro L
  induction L with
  | nil =>
      intro i c cur acc hcur hacc m hm
      rw [arpPackGo] at hm
      exact hacc m hm
  | cons p rest ih =>
      intro i c cur acc hcur hacc m hm
      cases rest with
      | nil =>
          rw [arpPackGo_last] at hm
          rcases List.mem_append.mp hm with h1 | h1
          · rcases mem_flushMeasure h1 with h2 | rfl
            · exact hacc m h2
            · exact hcur
          · rw [List.mem_singleton.mp h1, wholeMeasure]
      | cons q rest' =>
          rw [arpPackGo_cons] at hm
          by_cases hc : c % 8 = 0
          · rw [if_pos hc] at hm
            refine ih _ _ _ _ rfl ?_ m hm
            intro m' hm'
            rcases mem_flushMeasure hm' with h2 | rfl
            · exact hacc m' h2
            · exact hcur
          · rw [if_neg hc] at hm
            exact ih _ _ _ _
              (show ({ cur with notes := cur.notes ++ [mkNoteEv p (1/2)] } :
                Measure).clefIns = none from hcur) hacc m hm

/-- C10: the range/clef resolver never consults its part designator — any two
designators give the same result; Piano gets the full right/left profile
pair, and the hand selection is performed by the caller's
`selectedClefOctave`, which picks the right hand. -/
theorem determine_clef_and_octave_designator_independent
    (instrument_name p1 p2 : String) :
    determine_clef_and_octave instrument_name p1 =
      determine_clef_and_octave instrument_name p2 ∧
    (∀ p : String, determine_clef_and_octave "Piano" p =
      ClefOctaveResult.forHands ("TrebleClef", 4) ("BassClef", 2)) ∧
    selectedClefOctave "Piano" = ("TrebleClef", 4) := by
  refine ⟨rfl, fun p => ?_, ?_⟩
  · simp [determine_clef_and_octave]
  · simp [selectedClefOctave, determine_clef_and_octave]

/-- C8 counterexample: an empty rhythm pattern does not yield a document with
zero Parts — the custom-rhythm score still contains exactly one Part. -/
theorem empty_rhythm_score_counterexample :
    (generate_custom_rhythm_score "T" [] "Piano").length = 1 ∧
    generate_custom_rhythm_score "T" [] "Piano" ≠ ([] : MScore) := by
  constructor
  · rfl
  · intro h
    simp [generate_custom_rhythm_score] at h

/-- C8 (amended): an empty key list yields a scales/arpeggios score with zero
Parts; an empty rhythm pattern yields a custom-rhythm score with exactly one
Part that contains zero measures; both are returned without error. -/
theorem empty_inputs_spec (num_octaves : ℕ) (instrument_name title : String) :
    generate_scales_arpeggios_score [] num_octaves instrument_name = [] ∧
    (generate_custom_rhythm_score title [] instrument_name).length = 1 ∧
    ∀ part ∈ generate_custom_rhythm_score title [] instrument_name,
      partMeasures part = [] := by
  refine ⟨rfl, rfl, ?_⟩
  intro part hp
  rcases List.mem_singleton.mp hp with rfl
  rfl

theorem arpAllPitches_ne_nil (t : Letter) (a : ℤ) (o0 n : ℕ) (hn : 1 ≤ n) :
    arpAllPitches (getPitchesMajor t a o0 n) n ≠ [] := by
  intro h
  rcases List.append_eq_nil.mp h with ⟨h1, _⟩
  have hlen := arpeggioUpFrom_length t a o0 n hn
  rw [h1] at hlen
  simp at hlen

/-- C4 counterexample (key C, one octave, Piano): the first measure of the
arpeggio sub-section carries no clef, and the part's last element is a
measure — there is no trailing system-break marker after the key's block. -/
theorem part_assembler_counterexample :
    (partMeasures
      (create_part_for_single_key_scales_arpeggios (Letter.C, 0) 1 "Piano"))[3]?.map
        Measure.clefIns = some none ∧
    (create_part_for_single_key_scales_arpeggios (Letter.C, 0) 1 "Piano").getLast? ≠
      some PartElem.sysBreak := by
  constructor
  · decide
  · decide

/-- C4 (amended): for every key, positive octave count and instrument, the
assembled part is the instrument object and a leading system break, the scale
block (non-empty; clef and key signature both attached to its first measure),
a system break between the blocks, and the arpeggio block (non-empty; key
signature but no clef attached to its first measure); no system break follows
the arpeggio block — the part ends with a measure. -/
theorem part_assembler_spec (ks : Letter × ℤ) (n : ℕ) (i : String) (hn : 1 ≤ n) :
    create_part_for_single_key_scales_arpeggios ks n i =
      [PartElem.instr i, PartElem.sysBreak] ++
        (annotateFirstScale (selectedClefOctave i).1
          (create_scale_measures (keyName ks ++ " Major Scale") ks.1 ks.2
            (selectedClefOctave i).2 n)).map PartElem.meas ++
        [PartElem.sysBreak] ++
        (annotateFirstKey (create_arpeggio_measures (keyName ks ++ " Major Arpeggio")
          ks.1 ks.2 (selectedClefOctave i).2 n)).map PartElem.meas ∧
    create_scale_measures (keyName ks ++ " Major Scale") ks.1 ks.2
      (selectedClefOctave i).2 n ≠ [] ∧
    create_arpeggio_measures (keyName ks ++ " Major Arpeggio") ks.1 ks.2
      (selectedClefOctave i).2 n ≠ [] ∧
    (annotateFirstScale (selectedClefOctave i).1
        (create_scale_measures (keyName ks ++ " Major Scale") ks.1 ks.2
          (selectedClefOctave i).2 n)).head?.map (fun m => (m.clefIns, m.keyIns)) =
      some (some (selectedClefOctave i).1, true) ∧
    (annotateFirstKey (create_arpeggio_measures (keyName ks ++ " Major Arpeggio")
        ks.1 ks.2 (selectedClefOctave i).2 n)).head?.map
          (fun m => (m.clefIns, m.keyIns)) = some (none, true) ∧
    (create_part_for_single_key_scales_arpeggios ks n i).getLast? ≠
      some PartElem.sysBreak := by
  have hA : create_scale_measures (keyName ks ++ " Major Scale") ks.1 ks.2
      (selectedClefOctave i).2 n ≠ [] :=
    scalePackGo_ne_nil _ _ 0 0 emptyMeasure []
      (scaleAllPitches_ne_nil ks.1 ks.2 (selectedClefOctave i).2 n)
  have hB : create_arpeggio_measures (keyName ks ++ " Major Arpeggio") ks.1 ks.2
      (selectedClefOctave i).2 n ≠ [] :=
    arpPackGo_ne_nil _ _ 0 0 emptyMeasure []
      (arpAllPitches_ne_nil ks.1 ks.2 (selectedClefOctave i).2 n hn)
  have hBclef : ∀ m ∈ create_arpeggio_measures (keyName ks ++ " Major Arpeggio")
      ks.1 ks.2 (selectedClefOctave i).2 n, m.clefIns = none :=
    arpPackGo_clefIns _ _ 0 0 emptyMeasure [] rfl (by simp)
  refine ⟨rfl, hA, hB, ?_, ?_, ?_⟩
  · rcases hAe : create_scale_measures (keyName ks ++ " Major Scale") ks.1 ks.2
        (selectedClefOctave i).2 n with _ | ⟨m, rest⟩
    · exact absurd hAe hA
    · simp [annotateFirstScale]
  · rcases hBe : create_arpeggio_measures (keyName ks ++ " Major Arpeggio") ks.1 ks.2
        (selectedClefOctave i).2 n with _ | ⟨m, rest⟩
    · exact absurd hBe hB
    · have hm : m.clefIns = none := by
        refine hBclef m ?_
        rw [hBe]
        exact List.mem_cons_self ..
      simp [annotateFirstKey, hm]
  · have hBne : (annotateFirstKey (create_arpeggio_measures
        (keyName ks ++ " Major Arpeggio") ks.1 ks.2
          (selectedClefOctave i).2 n)).map PartElem.meas ≠ [] := by
      rcases hBe : create_arpeggio_measures (keyName ks ++ " Major Arpeggio") ks.1 ks.2
          (selectedClefOctave i).2 n with _ | ⟨m, rest⟩
      · exact absurd hBe hB
      · simp [annotateFirstKey]
    rw [create_part_for_single_key_scales_arpeggios]
    rw [List.append_assoc, List.append_assoc]
    rw [List.getLast?_append_of_ne_nil _ (by
      simp only [ne_eq, List.append_eq_nil, not_and]
      intro _
      simpa using hBne)]
    rw [List.getLast?_append_of_ne_nil _ (by simpa using hBne)]
    rw [List.getLast?_append_of_ne_nil _ hBne, List.getLast?_map]
    rcases (annotateFirstKey (create_arpeggio_measures (keyName ks ++ " Major Arpeggio")
        ks.1 ks.2 (selectedClefOctave i).2 n)).getLast? with _ | m <;> simp

/-- Witness for `part_assembler_spec`: key C, one octave, Piano. -/
theorem part_assembler_spec_witness :
    create_part_for_single_key_scales_arpeggios (Letter.C, 0) 1 "Piano" =
      [PartElem.instr "Piano", PartElem.sysBreak] ++
        (annotateFirstScale (selectedClefOctave "Piano").1
          (create_scale_measures (keyName (Letter.C, 0) ++ " Major Scale") Letter.C 0
            (selectedClefOctave "Piano").2 1)).map PartElem.meas ++
        [PartElem.sysBreak] ++
        (annotateFirstKey (create_arpeggio_measures
          (keyName (Letter.C, 0) ++ " Major Arpeggio") Letter.C 0
          (selectedClefOctave "Piano").2 1)).map PartElem.meas ∧
    create_scale_measures (keyName (Letter.C, 0) ++ " Major Scale") Letter.C 0
      (selectedClefOctave "Piano").2 1 ≠ [] ∧
    create_arpeggio_measures (keyName (Letter.C, 0) ++ " Major Arpeggio") Letter.C 0
      (selectedClefOctave "Piano").2 1 ≠ [] ∧
    (annotateFirstScale (selectedClefOctave "Piano").1
        (create_scale_measures (keyName (Letter.C, 0) ++ " Major Scale") Letter.C 0
          (selectedClefOctave "Piano").2 1)).head?.map
            (fun m => (m.clefIns, m.keyIns)) =
      some (some (selectedClefOctave "Piano").1, true) ∧
    (annotateFirstKey (create_arpeggio_measures
        (keyName (Letter.C, 0) ++ " Major Arpeggio") Letter.C 0
        (selectedClefOctave "Piano").2 1)).head?.map
          (fun m => (m.clefIns, m.keyIns)) = some (none, true) ∧
    (create_part_for_single_key_scales_arpeggios (Letter.C, 0) 1 "Piano").getLast? ≠
      some PartElem.sysBreak :=
  part_assembler_spec (Letter.C, 0) 1 "Piano" (by decide)

/-- C7 counterexample: the pattern `[[1], [0.5, 0.5]]` on Violin produces
notes at G3 — Violin is present in `EASIEST_NOTE_MAP` with easy pitch "G3" —
not at the default easy pitch C4 the claim asserts. -/
theorem rhythm_builder_counterexample :
    ((partMeasures (create_custom_rhythm_part "T" [[1], [1/2, 1/2]] "Violin")).flatMap
        Measure.notes).map NoteEv.pitch =
      [⟨.G, 0, 3, false, false⟩, ⟨.G, 0, 3, false, false⟩, ⟨.G, 0, 3, false, false⟩] ∧
    (⟨.G, 0, 3, false, false⟩ : MPitch) ≠ ⟨.C, 0, 4, false, false⟩ := by
  constructor
  · decide
  · decide

/-- C7 (amended): the rhythm line builder on `[[1], [0.5, 0.5]]` for Violin
produces exactly two measures — the first with one note of duration 4.0
quarter-note units carrying the title annotation, the second with two notes
of duration 2.0 each — every note at Violin's easy pitch G3 from
`EASIEST_NOTE_MAP`. -/
theorem rhythm_builder_spec :
    create_custom_rhythm_part "T" [[1], [1/2, 1/2]] "Violin" =
      [PartElem.instr "Violin", PartElem.sysBreak,
       PartElem.meas ⟨some "T", none, false, [⟨⟨.G, 0, 3, false, false⟩, 4⟩]⟩,
       PartElem.meas ⟨none, none, false,
         [⟨⟨.G, 0, 3, false, false⟩, 2⟩, ⟨⟨.G, 0, 3, false, false⟩, 2⟩]⟩] := by
  have heasy : (EASIEST_NOTE_MAP.lookup "Violin").getD "C4" = "G3" := by decide
  have hnote : fixPitch (noteFromString "G3") = ⟨.G, 0, 3, false, false⟩ := by decide
  simp only [create_custom_rhythm_part, heasy, hnote, List.mapIdx_cons,
    List.mapIdx_nil, List.map_cons, List.map_nil]
  norm_num
